import Mathlib

/-!
Shallow embedding of the slackabet emoji converter (main.go, strategy.go).

The Go program turns a sentence into a string of Slack emoji shortcodes.
Pure data is modelled directly; the `strings.Builder` is modelled as the
list of strings written to it, in order (rendered by `String.join`).
Go `error` values are modelled by the inductive `ConvErr`, which carries
the data interpolated into each `fmt.Errorf` / `errors.New` message.
-/

/-- Errors produced by the converter.
`noMatches` models `ErrNoMatches` ("plz give at least one word"),
`notSupported` models `ErrNotSupported` ("emoji-set not supported"),
`capacityExceeded m` models the reaction error message saying Slack
refuses reactions with more than m emojis, and
`colourExhausted ch pos lim` models the reaction error
"the character ch at position pos cannot be used more than lim times". -/
inductive ConvErr where
  | noMatches : ConvErr
  | notSupported : ConvErr
  | capacityExceeded : Nat → ConvErr
  | colourExhausted : String → Nat → Nat → ConvErr
  deriving DecidableEq, Repr

/-- The constants of strategy.go. -/
def alphabetSet : String := "alphabet"

def scrabbleSet : String := "scrabble"

def reactionSet : String := "reaction"

def letterPattern : String := "letter"

def wordPattern : String := "word"

def yellowPattern : String := "yellow"

def whitePattern : String := "white"

def alphabetColours : Nat := 2

/-- strategy.go `whichColour`: white on even indices, yellow on odd ones. -/
def whichColour (i : Nat) : String :=
  if i % alphabetColours = 0 then whitePattern else yellowPattern

/-- strategy.go `alphabetSuffix`.  The Go code compares one-rune strings;
for single runes the byte-wise string order used by Go coincides with the
code-point order on `Char` used here. -/
def alphabetSuffix (c : Char) : String :=
  if c = '!' then "exclamation"
  else if c = '#' then "hash"
  else if c = '?' then "question"
  else if c = '@' then "at"
  else if 'a' ≤ c ∧ c ≤ 'z' then String.singleton c
  else ""

/-- `fmt.Sprintf("alphabet-%s-%s", colour, suffix)`. -/
def mkTok (colour suffix : String) : String :=
  "alphabet-" ++ colour ++ "-" ++ suffix

/-- State of `alphabetStrategy`. -/
structure AlphabetSt where
  pattern : String
  writtenCharacters : Nat
  writtenWords : Nat
  deriving DecidableEq, Repr

/-- State of `reactionStrategy`.  The Go `map[string][]string` is modelled
as an association list with first-match lookup. -/
structure ReactionSt where
  written : Nat
  used : List (String × List String)
  maxR : Nat
  deriving DecidableEq, Repr

/-- Lookup in the model of the Go map `used`. -/
def lookupUsed (m : List (String × List String)) (k : String) : Option (List String) :=
  match m with
  | [] => none
  | (k', v) :: rest => if k' = k then some v else lookupUsed rest k

/-- Store a key in the model of the Go map `used` (replace or append). -/
def setUsed (m : List (String × List String)) (k : String) (v : List String) :
    List (String × List String) :=
  match m with
  | [] => [(k, v)]
  | (k', v') :: rest => if k' = k then (k, v) :: rest else (k', v') :: setUsed rest k v

/-- strategy.go `alphabetStrategy.Get`: pick the colour from the pattern,
then build the token when the character has a suffix. -/
def alphabetGet (a : AlphabetSt) (c : Char) : String :=
  let colour :=
    if a.pattern = letterPattern then whichColour a.writtenCharacters
    else if a.pattern = wordPattern then whichColour a.writtenWords
    else a.pattern
  let suffix := alphabetSuffix c
  if suffix = "" then "" else mkTok colour suffix

/-- strategy.go `scrabbleStrategy.Get`. -/
def scrabbleGet (c : Char) : String :=
  if c < 'a' ∨ 'z' < c then "" else "scrabble-" ++ String.singleton c

/-- The for-loop of `reactionStrategy.Get`: scan the colour indices in
order, returning the first colour not already in `used`. -/
def scanColour (used : List String) (written : Nat) : List Nat → Option String
  | [] => none
  | i :: rest =>
    if whichColour (written + i) ∈ used then scanColour used written rest
    else some (whichColour (written + i))

/-- The colour slots held for a suffix in a used-map: the stored list
when the key is present, else the fresh `make([]string, alphabetColours)`
list of two empty strings. -/
def slotsOf (used : List (String × List String)) (suffix : String) : List String :=
  match lookupUsed used suffix with
  | some u => u
  | none => List.replicate alphabetColours ("")

/-- The colour slots held for a suffix by a reaction resolver state. -/
def usedSlots (r : ReactionSt) (suffix : String) : List String :=
  slotsOf r.used suffix

/-- strategy.go `reactionStrategy.Get`.  The Go code first stores a fresh
`make([]string, alphabetColours)` slot list (two empty strings) into the
map when the suffix is absent and then scans; here the fresh slots are
used for the scan and stored only on success.  This is equivalent: on the
error paths the conversion aborts and the state is never observed again. -/
def reactionGet (r : ReactionSt) (c : Char) : Except ConvErr (String × ReactionSt) :=
  if r.maxR ≤ r.written then .error (.capacityExceeded r.maxR)
  else if alphabetSuffix c = "" then .ok ("", r)
  else
    match scanColour (usedSlots r (alphabetSuffix c)) r.written (List.range alphabetColours) with
    | some colour =>
      .ok (mkTok colour (alphabetSuffix c),
        ⟨r.written,
          setUsed r.used (alphabetSuffix c) (usedSlots r (alphabetSuffix c) ++ [colour]),
          r.maxR⟩)
    | none =>
      .error (.colourExhausted (String.singleton c) (r.written + 1) alphabetColours)

/-- The three resolver states behind the `emojiStrategy` interface. -/
inductive StratState where
  | alphabet : AlphabetSt → StratState
  | scrabble : StratState
  | reaction : ReactionSt → StratState
  deriving DecidableEq, Repr

/-- Dispatch of `emojiStrategy.Get`. -/
def stratGet (st : StratState) (c : Char) : Except ConvErr (String × StratState) :=
  match st with
  | .alphabet a => .ok (alphabetGet a c, .alphabet a)
  | .scrabble => .ok (scrabbleGet c, .scrabble)
  | .reaction r =>
    match reactionGet r c with
    | .error e => .error e
    | .ok (emoji, r') => .ok (emoji, .reaction r')

/-- Dispatch of `emojiStrategy.CharacterCallback`: the new state together
with the text the callback writes to the builder ("\n" in reaction mode,
nothing otherwise). -/
def charCallback (st : StratState) : StratState × String :=
  match st with
  | .alphabet a => (.alphabet { a with writtenCharacters := a.writtenCharacters + 1 }, "")
  | .scrabble => (.scrabble, "")
  | .reaction r => (.reaction { r with written := r.written + 1 }, "\n")

/-- Dispatch of `emojiStrategy.WordCallback`. -/
def wordCallback (st : StratState) : StratState :=
  match st with
  | .alphabet a => .alphabet { a with writtenWords := a.writtenWords + 1 }
  | s => s

/-- One write into the `strings.Builder`: `chr e` is a committed character
emoji written through `writeEmoji` (rendered `:e:`); `txt s` is any other
write, already rendered (separators, head/tail emojis, callback text). -/
inductive OutItem where
  | chr : String → OutItem
  | txt : String → OutItem
  deriving DecidableEq, Repr

/-- Render one builder write to the text it contributes. -/
def renderItem (it : OutItem) : String :=
  match it with
  | .chr e => ":" ++ e ++ ":"
  | .txt s => s

/-- The committed character emojis of a builder trace, in order. -/
def charToks (items : List OutItem) : List String :=
  items.filterMap fun it => match it with | .chr e => some e | .txt _ => none

/-- Strict colour alternation of a token list from alternation index k:
the j-th token is the alphabet token of colour `whichColour (k + j)` for
some non-empty suffix. -/
def alternatesFrom : Nat → List String → Prop
  | _, [] => True
  | k, t :: ts => (∃ sfx, sfx ≠ "" ∧ t = mkTok (whichColour k) sfx) ∧ alternatesFrom (k + 1) ts

/-- Invariant tying a reaction used-map to the tokens emitted so far:
each alphabet token occurs at most once, and it occurs exactly once iff
its colour is recorded in the slots of its suffix. -/
def UsedInv (used : List (String × List String)) (toks : List String) : Prop :=
  ∀ sfx colour, colour = whitePattern ∨ colour = yellowPattern →
    toks.count (mkTok colour sfx) ≤ 1 ∧
      (toks.count (mkTok colour sfx) = 1 ↔ colour ∈ slotsOf used sfx)

/-- main.go uppercase folding: `if char >= 65 && char <= 90 { char += 32 }`. -/
def lowerChar (c : Char) : Char :=
  if 65 ≤ c.toNat ∧ c.toNat ≤ 90 then Char.ofNat (c.toNat + 32) else c

/-- Lookup in the override table built by `buildStrategy`. -/
def lookupOv (ov : List (String × String)) (k : String) : Option String :=
  match ov with
  | [] => none
  | (k', v) :: rest => if k' = k then some v else lookupOv rest k

/-- The per-character body of the word loop in `Convert`, running against
the override-wrapped strategy: fold the character to lowercase, resolve
it, skip it when the resolved token is empty (`if emoji == "" continue`,
which applies to every branch, override entries included), and otherwise
write the token and fire the character-committed callback.  The first
branch is the Override Layer, whose Go definition (`overrideStrategy`) is
not part of the sources here.
Modelled from the spec: overrideStrategy resolution returns the override
table entry for the (lowercased) character directly, bypassing the inner
resolver entirely, with no state mutation on the inner resolver for
overridden characters — the committed-character callback is therefore not
propagated to the inner resolver on that branch.
Returns the builder writes, the new resolver state and the committed flag. -/
def charStep (ov : List (String × String)) (st : StratState) (c : Char) :
    Except ConvErr (List OutItem × StratState × Bool) :=
  let c := lowerChar c
  match lookupOv ov (String.singleton c) with
  | some e =>
    if e = "" then .ok ([], st, false)
    else .ok ([.chr e], st, true)
  | none =>
    match stratGet st c with
    | .error err => .error err
    | .ok (emoji, st1) =>
      if emoji = "" then .ok ([], st1, false)
      else
        let (st2, w) := charCallback st1
        .ok (.chr emoji :: (if w = "" then [] else [.txt w]), st2, true)

/-- The character loop of `Convert` over one word.  On a resolver failure
the partial builder writes so far are kept (the Go builder already holds
them) together with the error. -/
def charsLoop (ov : List (String × String)) (st : StratState) (committed : Bool) :
    List Char → List OutItem × StratState × Bool × Option ConvErr
  | [] => ([], st, committed, none)
  | c :: cs =>
    match charStep ov st c with
    | .error e => ([], st, committed, some e)
    | .ok (its, st1, comm) =>
      let (rest, st2, committed2, err) := charsLoop ov st1 (committed || comm) cs
      (its ++ rest, st2, committed2, err)

/-- The word loop of `Convert`: after a word that committed a token and is
not equal to `lastWord` (Go compares the word to `words[length-1]` by
value), write the separator (`:space:` when a space emoji is configured,
else the default spacing literal) and fire the word callback. -/
def wordsLoop (sp ds : String) (ov : List (String × String)) (lastWord : String)
    (st : StratState) : List String → List OutItem × StratState × Option ConvErr
  | [] => ([], st, none)
  | w :: ws =>
    match charsLoop ov st false w.data with
    | (its, st1, _, some e) => (its, st1, some e)
    | (its, st1, committed, none) =>
      if committed = false ∨ w = lastWord then
        let (rest, st2, err) := wordsLoop sp ds ov lastWord st1 ws
        (its ++ rest, st2, err)
      else
        let (rest, st2, err) := wordsLoop sp ds ov lastWord (wordCallback st1) ws
        (its ++ .txt (if sp = "" then ds else ":" ++ sp ++ ":") :: rest, st2, err)

/-- Go regexp `\s` (RE2 Perl class): `[\t\n\f\r ]`. -/
def isGoSpace (c : Char) : Bool :=
  c = ' ' ∨ c = '\t' ∨ c = '\n' ∨ c = Char.ofNat 12 ∨ c = '\r'

/-- Scanner for the matches of `\S+`: `acc` holds the reversed characters
of the non-whitespace run currently being read. -/
def splitWordsGo : List Char → List Char → List (List Char)
  | [], acc => if acc.isEmpty then [] else [acc.reverse]
  | c :: cs, acc =>
    if isGoSpace c then
      if acc.isEmpty then splitWordsGo cs [] else acc.reverse :: splitWordsGo cs []
    else splitWordsGo cs (c :: acc)

/-- The matches of `\S+` over the input: maximal runs of non-whitespace. -/
def splitWords (l : List Char) : List (List Char) :=
  splitWordsGo l []

/-- `strings.Join(c.Sentence, " ")`. -/
def joinSp (fragments : List String) : String :=
  String.intercalate (" ") fragments

/-- main.go `trimEmoji`: strip one trailing then one leading colon. -/
def trimEmoji (emoji : String) : String :=
  let s := if emoji.endsWith (":") then emoji.dropRight 1 else emoji
  if s.startsWith (":") then s.drop 1 else s

/-- strings.ToLower, restricted to its ASCII behaviour (every override key
exercised here is ASCII). -/
def toLowerGo (s : String) : String :=
  String.mk (s.data.map lowerChar)

/-- The flag and argument record of the CLI command (`ConvertCmd`), with
the kong defaults as field defaults. -/
structure ConvertCmd where
  sentence : List String := []
  emojiSet : String := alphabetSet
  pattern : String := letterPattern
  override : List (String × String) := []
  spaceEmoji : String := ""
  headEmoji : String := ""
  tailEmoji : String := ""
  defaultSpacing : String := ""
  deriving DecidableEq, Repr

/-- main.go `buildStrategy`: pick the resolver for the emoji set (the
scrabble branch defaults the space emoji, the reaction branch clears the
default spacing), then build the override table with lowercased keys and
trimmed values.  Returns the updated command, the resolver state and the
override table. -/
def buildStrategy (c : ConvertCmd) :
    Except ConvErr (ConvertCmd × StratState × List (String × String)) :=
  let ov := c.override.map fun kv => (toLowerGo kv.1, trimEmoji kv.2)
  if c.emojiSet = alphabetSet then
    .ok (c, .alphabet ⟨c.pattern, 0, 0⟩, ov)
  else if c.emojiSet = scrabbleSet then
    .ok ({ c with spaceEmoji := if c.spaceEmoji = "" then "scrabble-blank" else c.spaceEmoji },
      .scrabble, ov)
  else if c.emojiSet = reactionSet then
    .ok ({ c with defaultSpacing := "" }, .reaction ⟨0, [], 23⟩, ov)
  else .error .notSupported

/-- The flag normalization at the top of `Convert`: install the default
four-space separator and strip the colon delimiters from the decoration
emojis when they are set. -/
def normalizeCmd (c : ConvertCmd) : ConvertCmd :=
  let c := { c with defaultSpacing := "    " }
  let c := { c with spaceEmoji := if c.spaceEmoji = "" then c.spaceEmoji else trimEmoji c.spaceEmoji }
  let c := { c with headEmoji := if c.headEmoji = "" then c.headEmoji else trimEmoji c.headEmoji }
  { c with tailEmoji := if c.tailEmoji = "" then c.tailEmoji else trimEmoji c.tailEmoji }

/-- The body of `Convert` after the word split: build the strategy, then
run head emoji, word loop and tail emoji.  On failure the partial builder
trace is returned with the error (the caller discards it). -/
def convertWithWords (c : ConvertCmd) (words : List String) : List OutItem × Option ConvErr :=
  match buildStrategy c with
  | .error e => ([], some e)
  | .ok (c, st, ov) =>
    let headItems : List OutItem :=
      if c.headEmoji = "" then [] else [.txt (":" ++ c.headEmoji ++ ":")]
    let lastWord := words.getLastD ("")
    match wordsLoop c.spaceEmoji c.defaultSpacing ov lastWord st words with
    | (items, _, some e) => (headItems ++ items, some e)
    | (items, _, none) =>
      let tailItems : List OutItem :=
        if c.tailEmoji = "" then [] else [.txt (":" ++ c.tailEmoji ++ ":")]
      (headItems ++ items ++ tailItems, none)

/-- main.go `Convert`, producing the builder trace: split into words,
fail when none are found, then normalize the flags and convert. -/
def ConvertCore (c : ConvertCmd) : List OutItem × Option ConvErr :=
  let words := (splitWords (joinSp c.sentence).data).map fun l => String.mk l
  if words.length < 1 then ([], some .noMatches)
  else convertWithWords (normalizeCmd c) words

/-- main.go `Convert` as seen by the caller: the assembled string together
with an optional error.  Every error return site in the Go code is
`return "", err`: the partially built string is discarded. -/
def Convert (c : ConvertCmd) : String × Option ConvErr :=
  match ConvertCore c with
  | (_, some e) => ("", some e)
  | (items, none) => (String.join (items.map renderItem), none)

/-! ## Helper lemmas -/

theorem splitWords_all_space (l : List Char) (h : ∀ c ∈ l, isGoSpace c) :
    splitWords l = [] := by
  unfold splitWords
  induction l with
  | nil => simp [splitWordsGo]
  | cons c cs ih =>
    have hc : isGoSpace c := h c (List.mem_cons_self _ _)
    simp only [splitWordsGo, hc, if_true, List.isEmpty_nil]
    exact ih fun x hx => h x (List.mem_cons_of_mem _ hx)

theorem mkTok_ne_empty (colour suffix : String) : mkTok colour suffix ≠ "" := by
  intro h
  have h2 := congrArg String.data h
  simp [mkTok, String.data_append] at h2

theorem charToks_append (l1 l2 : List OutItem) :
    charToks (l1 ++ l2) = charToks l1 ++ charToks l2 := by
  simp [charToks]

theorem charToks_map_chr (toks : List String) :
    charToks (toks.map OutItem.chr) = toks := by
  induction toks with
  | nil => rfl
  | cons t ts ih => simp [charToks] at ih ⊢; exact ih

theorem charToks_ite_txt (P : Prop) [Decidable P] (s : String) :
    charToks (if P then ([] : List OutItem) else [.txt s]) = [] := by
  by_cases h : P <;> simp [h, charToks]

theorem alternatesFrom_append (l1 l2 : List String) :
    ∀ k, alternatesFrom k l1 → alternatesFrom (k + l1.length) l2 →
      alternatesFrom k (l1 ++ l2) := by
  induction l1 with
  | nil => intro k _ h2; simpa using h2
  | cons t ts ih =>
    intro k h1 h2
    obtain ⟨he, hrest⟩ := h1
    simp only [List.length_cons] at h2
    refine ⟨he, ih (k + 1) hrest ?_⟩
    have e : k + 1 + ts.length = k + (ts.length + 1) := by omega
    rw [e]
    exact h2

theorem buildStrategy_alphabet (c : ConvertCmd) (h : c.emojiSet = alphabetSet) :
    buildStrategy c = .ok (c, .alphabet ⟨c.pattern, 0, 0⟩,
      c.override.map fun kv => (toLowerGo kv.1, trimEmoji kv.2)) := by
  unfold buildStrategy
  rw [if_pos h]

theorem charStep_alphabet_letter (k w : Nat) (c : Char) :
    charStep [] (.alphabet ⟨letterPattern, k, w⟩) c =
      if alphabetSuffix (lowerChar c) = "" then
        .ok ([], .alphabet ⟨letterPattern, k, w⟩, false)
      else
        .ok ([.chr (mkTok (whichColour k) (alphabetSuffix (lowerChar c)))],
          .alphabet ⟨letterPattern, k + 1, w⟩, true) := by
  by_cases h : alphabetSuffix (lowerChar c) = ""
  · simp [charStep, lookupOv, stratGet, alphabetGet, h]
  · simp [charStep, lookupOv, stratGet, alphabetGet, h, charCallback, mkTok_ne_empty]

theorem charsLoop_alphabet_letter (cs : List Char) :
    ∀ (k w : Nat) (comm : Bool),
      ∃ toks comm2,
        charsLoop [] (.alphabet ⟨letterPattern, k, w⟩) comm cs =
          (toks.map OutItem.chr, .alphabet ⟨letterPattern, k + toks.length, w⟩, comm2, none) ∧
        alternatesFrom k toks := by
  induction cs with
  | nil =>
    intro k w comm
    exact ⟨[], comm, by simp [charsLoop], trivial⟩
  | cons c cs ih =>
    intro k w comm
    by_cases h : alphabetSuffix (lowerChar c) = ""
    · obtain ⟨toks, comm2, heq, halt⟩ := ih k w comm
      refine ⟨toks, comm2, ?_, halt⟩
      simp only [charsLoop, charStep_alphabet_letter, h, eq_self_iff_true, if_true,
        Bool.or_false]
      rw [heq]
      simp
    · obtain ⟨toks, comm2, heq, halt⟩ := ih (k + 1) w true
      have e : k + 1 + toks.length = k + (toks.length + 1) := by omega
      rw [e] at heq
      refine ⟨mkTok (whichColour k) (alphabetSuffix (lowerChar c)) :: toks, comm2, ?_,
        ⟨alphabetSuffix (lowerChar c), h, rfl⟩, halt⟩
      simp only [charsLoop, charStep_alphabet_letter, h, if_false, Bool.or_true]
      rw [heq]
      simp

theorem wordsLoop_alphabet_letter (ws : List String) (sp ds lastW : String) :
    ∀ (k w : Nat),
      ∃ items w2 toks,
        wordsLoop sp ds [] lastW (.alphabet ⟨letterPattern, k, w⟩) ws =
          (items, .alphabet ⟨letterPattern, k + toks.length, w2⟩, none) ∧
        charToks items = toks ∧ alternatesFrom k toks := by
  induction ws with
  | nil =>
    intro k w
    exact ⟨[], w, [], by simp [wordsLoop], by simp [charToks], trivial⟩
  | cons wd ws ih =>
    intro k w
    obtain ⟨toksW, comm2, hchars, haltW⟩ := charsLoop_alphabet_letter wd.data k w false
    by_cases hskip : comm2 = false ∨ wd = lastW
    · obtain ⟨items, w2, toks, heq, hct, halt⟩ := ih (k + toksW.length) w
      have e : k + toksW.length + toks.length = k + (toksW ++ toks).length := by
        simp [List.length_append]; omega
      rw [e] at heq
      refine ⟨toksW.map OutItem.chr ++ items, w2, toksW ++ toks, ?_, ?_, ?_⟩
      · simp only [wordsLoop, hchars]
        rw [if_pos hskip, heq]
      · rw [charToks_append, charToks_map_chr, hct]
      · exact alternatesFrom_append toksW toks k haltW halt
    · obtain ⟨items, w2, toks, heq, hct, halt⟩ := ih (k + toksW.length) (w + 1)
      have e : k + toksW.length + toks.length = k + (toksW ++ toks).length := by
        simp [List.length_append]; omega
      rw [e] at heq
      refine ⟨toksW.map OutItem.chr ++
        .txt (if sp = "" then ds else ":" ++ sp ++ ":") :: items, w2, toksW ++ toks,
        ?_, ?_, ?_⟩
      · simp only [wordsLoop, hchars]
        rw [if_neg hskip]
        simp only [wordCallback]
        rw [heq]
      · simp only [charToks_append, charToks_map_chr]
        simpa [charToks] using hct
      · exact alternatesFrom_append toksW toks k haltW halt

theorem convertWithWords_alphabet_letter (c : ConvertCmd) (words : List String)
    (h1 : c.emojiSet = alphabetSet) (h2 : c.pattern = letterPattern) (h3 : c.override = [])
    (items : List OutItem) (hok : convertWithWords c words = (items, none)) :
    alternatesFrom 0 (charToks items) := by
  unfold convertWithWords at hok
  rw [buildStrategy_alphabet c h1, h2] at hok
  simp only [h3, List.map_nil] at hok
  obtain ⟨itemsL, w2, toks, heq, hct, halt⟩ :=
    wordsLoop_alphabet_letter words c.spaceEmoji c.defaultSpacing (words.getLastD ("")) 0 0
  rw [heq] at hok
  have hitems : items =
      (if c.headEmoji = "" then ([] : List OutItem) else [.txt (":" ++ c.headEmoji ++ ":")]) ++
        itemsL ++
        (if c.tailEmoji = "" then ([] : List OutItem) else [.txt (":" ++ c.tailEmoji ++ ":")]) := by
    have := congrArg Prod.fst hok
    simpa using this.symm
  rw [hitems, charToks_append, charToks_append, charToks_ite_txt, charToks_ite_txt, hct]
  simpa using halt

theorem mkTok_suffix_inj (colour s1 s2 : String) (h : mkTok colour s1 = mkTok colour s2) :
    s1 = s2 := by
  have h2 := congrArg String.data h
  simp only [mkTok, String.data_append, List.append_assoc] at h2
  exact String.ext
    (List.append_cancel_left (List.append_cancel_left (List.append_cancel_left h2)))

theorem mkTok_white_eq (s : String) : mkTok whitePattern s = "alphabet-white-" ++ s := by
  have h : ("alphabet-" ++ whitePattern ++ "-") = "alphabet-white-" := by decide
  unfold mkTok
  rw [h]

theorem mkTok_yellow_eq (s : String) : mkTok yellowPattern s = "alphabet-yellow-" ++ s := by
  have h : ("alphabet-" ++ yellowPattern ++ "-") = "alphabet-yellow-" := by decide
  unfold mkTok
  rw [h]

theorem mkTok_white_ne_yellow (s1 s2 : String) :
    mkTok whitePattern s1 ≠ mkTok yellowPattern s2 := by
  rw [mkTok_white_eq, mkTok_yellow_eq]
  intro h
  have h2 := congrArg String.data h
  simp only [String.data_append] at h2
  have h9 := congrArg (fun l => l[9]?) h2
  simp only [List.getElem?_append_left
      (by decide : (9 : Nat) < ("alphabet-white-").data.length),
    List.getElem?_append_left
      (by decide : (9 : Nat) < ("alphabet-yellow-").data.length)] at h9
  simp at h9

theorem whichColour_cases (n : Nat) :
    whichColour n = whitePattern ∨ whichColour n = yellowPattern := by
  unfold whichColour
  by_cases h : n % alphabetColours = 0 <;> simp [h]

theorem lookupUsed_setUsed_self (m : List (String × List String)) (k : String)
    (v : List String) : lookupUsed (setUsed m k v) k = some v := by
  induction m with
  | nil => simp [setUsed, lookupUsed]
  | cons p rest ih =>
    by_cases h : p.1 = k
    · simp [setUsed, lookupUsed, h]
    · simp [setUsed, lookupUsed, h, ih]

theorem lookupUsed_setUsed_other (m : List (String × List String)) (k k' : String)
    (v : List String) (h : k ≠ k') : lookupUsed (setUsed m k v) k' = lookupUsed m k' := by
  induction m with
  | nil => simp [setUsed, lookupUsed, h]
  | cons p rest ih =>
    by_cases hp : p.1 = k
    · simp [setUsed, lookupUsed, hp, h]
    · simp [setUsed, lookupUsed, hp, ih]

theorem scanColour_spec (u : List String) (wr : Nat) :
    ∀ (is : List Nat) (colour : String), scanColour u wr is = some colour →
      colour ∉ u ∧ ∃ i, i ∈ is ∧ colour = whichColour (wr + i) := by
  intro is
  induction is with
  | nil => intro colour h; simp [scanColour] at h
  | cons i rest ih =>
    intro colour h
    by_cases hmem : whichColour (wr + i) ∈ u
    · rw [scanColour, if_pos hmem] at h
      obtain ⟨hnot, j, hj, hcol⟩ := ih colour h
      exact ⟨hnot, j, List.mem_cons_of_mem _ hj, hcol⟩
    · rw [scanColour, if_neg hmem] at h
      cases h
      exact ⟨hmem, i, List.mem_cons_self _ _, rfl⟩

theorem slotsOf_setUsed_self (m : List (String × List String)) (k : String)
    (v : List String) : slotsOf (setUsed m k v) k = v := by
  unfold slotsOf
  rw [lookupUsed_setUsed_self]

theorem slotsOf_setUsed_other (m : List (String × List String)) (k k' : String)
    (v : List String) (h : k ≠ k') : slotsOf (setUsed m k v) k' = slotsOf m k' := by
  unfold slotsOf
  rw [lookupUsed_setUsed_other _ _ _ _ h]

theorem UsedInv_nil : UsedInv [] [] := by
  intro sfx colour hcol
  have hmem : colour ∉ slotsOf [] sfx := by
    have h0 : slotsOf [] sfx = ["", ""] := rfl
    rw [h0]
    rcases hcol with h | h <;> subst h <;> decide
  refine ⟨by simp, ?_⟩
  simp only [List.count_nil]
  exact iff_of_false (by omega) hmem

theorem UsedInv_step (used : List (String × List String)) (pre : List String)
    (sfx colour : String) (hcol : colour = whitePattern ∨ colour = yellowPattern)
    (hfree : colour ∉ slotsOf used sfx) (hinv : UsedInv used pre) :
    UsedInv (setUsed used sfx (slotsOf used sfx ++ [colour])) (pre ++ [mkTok colour sfx]) := by
  intro sfx' colour' hcol'
  obtain ⟨hle, hiff⟩ := hinv sfx' colour' hcol'
  by_cases hss : sfx' = sfx
  · subst hss
    by_cases hcc : colour' = colour
    · subst hcc
      have hcnt0 : pre.count (mkTok colour' sfx') = 0 := by
        rcases Nat.lt_or_ge (pre.count (mkTok colour' sfx')) 1 with h | h
        · omega
        · exact absurd (hiff.mp (by omega)) hfree
      constructor
      · rw [List.count_append, hcnt0, List.count_singleton' _ _]
        simp
      · rw [List.count_append, hcnt0, List.count_singleton' _ _, slotsOf_setUsed_self]
        simp
    · have hne : mkTok colour' sfx' ≠ mkTok colour sfx' := by
        rcases hcol' with h1 | h1 <;> rcases hcol with h2 | h2 <;> subst h1 <;> subst h2
        · exact absurd rfl hcc
        · exact mkTok_white_ne_yellow sfx' sfx'
        · exact fun h => mkTok_white_ne_yellow sfx' sfx' h.symm
        · exact absurd rfl hcc
      have hcnt : (pre ++ [mkTok colour sfx']).count (mkTok colour' sfx') =
          pre.count (mkTok colour' sfx') := by
        rw [List.count_append, List.count_singleton' _ _, if_neg (fun h => hne h.symm)]
        omega
      have hmem : colour' ∈ slotsOf (setUsed used sfx' (slotsOf used sfx' ++ [colour]))
          sfx' ↔ colour' ∈ slotsOf used sfx' := by
        rw [slotsOf_setUsed_self]
        simp [List.mem_append, hcc]
      rw [hcnt, hmem]
      exact ⟨hle, hiff⟩
  · have hne : mkTok colour' sfx' ≠ mkTok colour sfx := by
      intro h
      rcases hcol' with h1 | h1 <;> rcases hcol with h2 | h2 <;> subst h1 <;> subst h2
      · exact hss (mkTok_suffix_inj _ _ _ h)
      · exact mkTok_white_ne_yellow sfx' sfx h
      · exact mkTok_white_ne_yellow sfx sfx' h.symm
      · exact hss (mkTok_suffix_inj _ _ _ h)
    have hcnt : (pre ++ [mkTok colour sfx]).count (mkTok colour' sfx') =
        pre.count (mkTok colour' sfx') := by
      rw [List.count_append, List.count_singleton' _ _, if_neg (fun h => hne h.symm)]
      omega
    have hslots : slotsOf (setUsed used sfx (slotsOf used sfx ++ [colour])) sfx' =
        slotsOf used sfx' :=
      slotsOf_setUsed_other _ _ _ _ (fun h => hss h.symm)
    rw [hcnt, hslots]
    exact ⟨hle, hiff⟩

theorem charStep_reaction_cases (r : ReactionSt) (c : Char) :
    (∃ e, charStep [] (.reaction r) c = .error e) ∨
    charStep [] (.reaction r) c = .ok ([], .reaction r, false) ∨
    (∃ colour sfx, sfx = alphabetSuffix (lowerChar c) ∧ sfx ≠ "" ∧
      (colour = whitePattern ∨ colour = yellowPattern) ∧
      colour ∉ slotsOf r.used sfx ∧
      charStep [] (.reaction r) c =
        .ok ([.chr (mkTok colour sfx), .txt ("\n")],
          .reaction ⟨r.written + 1, setUsed r.used sfx (slotsOf r.used sfx ++ [colour]),
            r.maxR⟩, true)) := by
  by_cases hcap : r.maxR ≤ r.written
  · refine Or.inl ⟨.capacityExceeded r.maxR, ?_⟩
    simp [charStep, lookupOv, stratGet, reactionGet, hcap]
  · by_cases hsfx : alphabetSuffix (lowerChar c) = ""
    · refine Or.inr (Or.inl ?_)
      simp [charStep, lookupOv, stratGet, reactionGet, hcap, hsfx]
    · rcases hscan : scanColour (usedSlots r (alphabetSuffix (lowerChar c))) r.written
          (List.range alphabetColours) with _ | colour
      · refine Or.inl ⟨.colourExhausted (String.singleton (lowerChar c)) (r.written + 1)
          alphabetColours, ?_⟩
        simp [charStep, lookupOv, stratGet, reactionGet, hcap, hsfx, hscan]
      · simp only [usedSlots] at hscan
        obtain ⟨hfree, i, _, hcol⟩ := scanColour_spec _ _ _ _ hscan
        refine Or.inr (Or.inr ⟨colour, alphabetSuffix (lowerChar c), rfl, hsfx,
          hcol ▸ whichColour_cases _, hfree, ?_⟩)
        simp [charStep, lookupOv, stratGet, reactionGet, usedSlots, hcap, hsfx, hscan,
          mkTok_ne_empty, charCallback]

theorem charsLoop_reaction_inv (cs : List Char) :
    ∀ (r : ReactionSt) (comm : Bool) (pre : List String),
      UsedInv r.used pre →
      ∀ its st2 comm2,
        charsLoop [] (.reaction r) comm cs = (its, st2, comm2, none) →
        ∃ r2, st2 = .reaction r2 ∧ UsedInv r2.used (pre ++ charToks its) ∧
          ∀ t ∈ charToks its, ∃ sfx, sfx ≠ "" ∧
            (t = mkTok whitePattern sfx ∨ t = mkTok yellowPattern sfx) := by
  induction cs with
  | nil =>
    intro r comm pre hinv its st2 comm2 heq
    simp only [charsLoop, Prod.mk.injEq] at heq
    obtain ⟨h1, h2, _, _⟩ := heq
    subst h1
    subst h2
    exact ⟨r, rfl, by simpa [charToks] using hinv, by simp [charToks]⟩
  | cons c cs ih =>
    intro r comm pre hinv its st2 comm2 heq
    rcases charStep_reaction_cases r c with ⟨e, hstep⟩ | hstep |
      ⟨colour, sfx, hsfx, hsfxne, hcol, hfree, hstep⟩
    · simp only [charsLoop, hstep] at heq
      simp at heq
    · simp only [charsLoop, hstep] at heq
      rcases hrec : charsLoop [] (.reaction r) (comm || false) cs with ⟨rest, st3, comm3, err⟩
      simp only [hrec, Prod.mk.injEq] at heq
      obtain ⟨h1, h2, _, h4⟩ := heq
      cases err with
      | some e => exact absurd h4 (by simp)
      | none =>
        obtain ⟨r2, hst, hinv2, hform⟩ := ih r (comm || false) pre hinv rest st3 comm3 hrec
        subst h1
        subst h2
        exact ⟨r2, hst, by simpa [charToks] using hinv2, by simpa [charToks] using hform⟩
    · simp only [charsLoop, hstep] at heq
      rcases hrec : charsLoop []
          (.reaction ⟨r.written + 1, setUsed r.used sfx (slotsOf r.used sfx ++ [colour]),
            r.maxR⟩) (comm || true) cs with ⟨rest, st3, comm3, err⟩
      simp only [hrec, Prod.mk.injEq] at heq
      obtain ⟨h1, h2, _, h4⟩ := heq
      cases err with
      | some e => exact absurd h4 (by simp)
      | none =>
        have hinv1 : UsedInv (setUsed r.used sfx (slotsOf r.used sfx ++ [colour]))
            (pre ++ [mkTok colour sfx]) := UsedInv_step r.used pre sfx colour hcol hfree hinv
        obtain ⟨r2, hst, hinv2, hform⟩ :=
          ih ⟨r.written + 1, setUsed r.used sfx (slotsOf r.used sfx ++ [colour]), r.maxR⟩
            (comm || true) (pre ++ [mkTok colour sfx]) hinv1 rest st3 comm3 hrec
        subst h1
        subst h2
        refine ⟨r2, hst, ?_, ?_⟩
        · simpa [charToks, List.append_assoc] using hinv2
        · intro t ht
          simp only [charToks, List.filterMap_append, List.filterMap_cons,
            List.filterMap_nil, List.mem_append, List.mem_cons, List.not_mem_nil,
            or_false] at ht
          rcases ht with ht | ht
          · refine ⟨sfx, hsfxne, ?_⟩
            rcases hcol with h | h
            · subst h
              exact Or.inl ht
            · subst h
              exact Or.inr ht
          · exact hform t (by simpa [charToks] using ht)

theorem wordsLoop_reaction_inv (ws : List String) (sp ds lastW : String) :
    ∀ (r : ReactionSt) (pre : List String),
      UsedInv r.used pre →
      ∀ items st2,
        wordsLoop sp ds [] lastW (.reaction r) ws = (items, st2, none) →
        ∃ r2, st2 = .reaction r2 ∧ UsedInv r2.used (pre ++ charToks items) ∧
          ∀ t ∈ charToks items, ∃ sfx, sfx ≠ "" ∧
            (t = mkTok whitePattern sfx ∨ t = mkTok yellowPattern sfx) := by
  induction ws with
  | nil =>
    intro r pre hinv items st2 heq
    simp only [wordsLoop, Prod.mk.injEq] at heq
    obtain ⟨h1, h2, _⟩ := heq
    subst h1
    subst h2
    exact ⟨r, rfl, by simpa [charToks] using hinv, by simp [charToks]⟩
  | cons wd ws ih =>
    intro r pre hinv items st2 heq
    rcases hcl : charsLoop [] (.reaction r) false wd.data with ⟨its, st1, comm2, err⟩
    cases err with
    | some e =>
      simp only [wordsLoop, hcl] at heq
      simp at heq
    | none =>
      obtain ⟨r1, hst1, hinv1, hform1⟩ :=
        charsLoop_reaction_inv wd.data r false pre hinv its st1 comm2 hcl
      subst hst1
      simp only [wordsLoop, hcl] at heq
      by_cases hskip : comm2 = false ∨ wd = lastW
      · rw [if_pos hskip] at heq
        rcases hrec : wordsLoop sp ds [] lastW (.reaction r1) ws with ⟨rest, st3, err2⟩
        simp only [hrec, Prod.mk.injEq] at heq
        obtain ⟨h1, h2, h3⟩ := heq
        cases err2 with
        | some e => exact absurd h3 (by simp)
        | none =>
          obtain ⟨r2, hst2, hinv2, hform2⟩ :=
            ih r1 (pre ++ charToks its) hinv1 rest st3 hrec
          subst h1
          subst h2
          refine ⟨r2, hst2, ?_, ?_⟩
          · simpa [charToks_append, List.append_assoc] using hinv2
          · intro t ht
            rw [charToks_append, List.mem_append] at ht
            rcases ht with ht | ht
            · exact hform1 t ht
            · exact hform2 t ht
      · rw [if_neg hskip] at heq
        have hwc : wordCallback (.reaction r1) = .reaction r1 := rfl
        rw [hwc] at heq
        rcases hrec : wordsLoop sp ds [] lastW (.reaction r1) ws with ⟨rest, st3, err2⟩
        simp only [hrec, Prod.mk.injEq] at heq
        obtain ⟨h1, h2, h3⟩ := heq
        cases err2 with
        | some e => exact absurd h3 (by simp)
        | none =>
          obtain ⟨r2, hst2, hinv2, hform2⟩ :=
            ih r1 (pre ++ charToks its) hinv1 rest st3 hrec
          subst h1
          subst h2
          refine ⟨r2, hst2, ?_, ?_⟩
          · simpa [charToks_append, charToks, List.append_assoc] using hinv2
          · intro t ht
            rw [charToks_append, List.mem_append] at ht
            rcases ht with ht | ht
            · exact hform1 t ht
            · simp only [charToks, List.filterMap_cons] at ht
              exact hform2 t (by simpa [charToks] using ht)

theorem buildStrategy_reaction (c : ConvertCmd) (h : c.emojiSet = reactionSet) :
    buildStrategy c = .ok ({ c with defaultSpacing := "" }, .reaction ⟨0, [], 23⟩,
      c.override.map fun kv => (toLowerGo kv.1, trimEmoji kv.2)) := by
  unfold buildStrategy
  rw [h]
  rw [if_neg (by decide), if_neg (by decide), if_pos rfl]

theorem convertWithWords_reaction (c : ConvertCmd) (words : List String)
    (h1 : c.emojiSet = reactionSet) (h3 : c.override = [])
    (items : List OutItem) (hok : convertWithWords c words = (items, none)) :
    (∀ t ∈ charToks items, ∃ sfx, sfx ≠ "" ∧
      (t = mkTok whitePattern sfx ∨ t = mkTok yellowPattern sfx)) ∧
    ∀ sfx, (charToks items).count (mkTok whitePattern sfx) ≤ 1 ∧
      (charToks items).count (mkTok yellowPattern sfx) ≤ 1 := by
  unfold convertWithWords at hok
  rw [buildStrategy_reaction c h1] at hok
  simp only [h3, List.map_nil] at hok
  rcases hwl : wordsLoop c.spaceEmoji ("") [] (words.getLastD ("")) (.reaction ⟨0, [], 23⟩)
      words with ⟨itemsL, st2, err⟩
  rw [hwl] at hok
  cases err with
  | some e => exact absurd (congrArg Prod.snd hok) (by simp)
  | none =>
    obtain ⟨r2, _, hinv, hform⟩ :=
      wordsLoop_reaction_inv words c.spaceEmoji ("") (words.getLastD ("")) ⟨0, [], 23⟩ []
        UsedInv_nil itemsL st2 hwl
    have hitems : items =
        (if c.headEmoji = "" then ([] : List OutItem)
          else [.txt (":" ++ c.headEmoji ++ ":")]) ++ itemsL ++
        (if c.tailEmoji = "" then ([] : List OutItem)
          else [.txt (":" ++ c.tailEmoji ++ ":")]) := by
      have := congrArg Prod.fst hok
      simpa using this.symm
    have hct : charToks items = charToks itemsL := by
      rw [hitems, charToks_append, charToks_append, charToks_ite_txt, charToks_ite_txt]
      simp
    rw [hct]
    constructor
    · exact fun t ht => hform t ht
    · intro sfx
      have hw := hinv sfx whitePattern (Or.inl rfl)
      have hy := hinv sfx yellowPattern (Or.inr rfl)
      simp only [List.nil_append] at hw hy
      exact ⟨hw.1, hy.1⟩

/-! ## Claim theorems -/

set_option maxRecDepth 10000 in
/-- Claim C7: converting the sentence "test !?#@" in alphabet mode with
the per-letter pattern, no overrides and no head, tail or space tokens,
succeeds and returns exactly the alternating-colour string with the
four-space separator. -/
theorem C7_convert_test_sentence :
    Convert { sentence := ["test !?#@"] } =
      (":alphabet-white-t::alphabet-yellow-e::alphabet-white-s::alphabet-yellow-t:" ++
        "    " ++
        ":alphabet-white-exclamation::alphabet-yellow-question::alphabet-white-hash:" ++
        ":alphabet-yellow-at:", none) := by
  decide

/-- Claim C1 (evaluation at the failing input): for the sentence
"a b a" in per-word alternation mode, the first word "a" committed a
token and is not the last word by position, yet the code emits no
separator and fires no word callback after it, because `Convert` compares
each word by value with `words[length-1]`; consequently the consecutive
committed words "a" and "b" also carry the same colour. -/
theorem C1_convert_aba_eval :
    Convert { sentence := ["a b a"], pattern := wordPattern } =
      (":alphabet-white-a::alphabet-white-b:" ++ "    " ++ ":alphabet-yellow-a:", none) := by
  decide

/-- Claim C8: for every sentence whose joined text consists only of
whitespace (including the empty sentence) and every configuration,
convert fails with NoWordsFound. -/
theorem C8_whitespace_only_noMatches (cfg : ConvertCmd)
    (h : ∀ c ∈ (joinSp cfg.sentence).data, isGoSpace c) :
    Convert cfg = ("", some ConvErr.noMatches) := by
  have hw : splitWords (joinSp cfg.sentence).data = [] := splitWords_all_space _ h
  simp [Convert, ConvertCore, hw]

theorem C8_whitespace_only_noMatches_witness :
    Convert { sentence := [" ", "\t \n"] } = ("", some ConvErr.noMatches) :=
  C8_whitespace_only_noMatches _ (by decide)

/-- Claim C10: when the sentence is whitespace-only (including empty) and
the configuration selects an unsupported emoji set, convert fails with
NoWordsFound rather than UnsupportedEmojiSet: the word split and the
empty check run before the strategy is built. -/
theorem C10_noMatches_precedes_notSupported (cfg : ConvertCmd)
    (hset : cfg.emojiSet ≠ alphabetSet ∧ cfg.emojiSet ≠ scrabbleSet ∧
      cfg.emojiSet ≠ reactionSet)
    (h : ∀ c ∈ (joinSp cfg.sentence).data, isGoSpace c) :
    Convert cfg = ("", some ConvErr.noMatches) ∧
      Convert cfg ≠ ("", some ConvErr.notSupported) := by
  have hw : splitWords (joinSp cfg.sentence).data = [] := splitWords_all_space _ h
  constructor
  · simp [Convert, ConvertCore, hw]
  · simp [Convert, ConvertCore, hw]

theorem C10_noMatches_precedes_notSupported_witness :
    Convert { sentence := ["  "], emojiSet := "foo" } = ("", some ConvErr.noMatches) ∧
      Convert { sentence := ["  "], emojiSet := "foo" } ≠ ("", some ConvErr.notSupported) :=
  C10_noMatches_precedes_notSupported _ (by decide) (by decide)

/-- Claim C9: whenever convert fails, the returned string is empty — the
partially built output is discarded — and the error produced inside the
conversion is returned to the caller unchanged. -/
theorem C9_no_partial_output (cfg : ConvertCmd) (e : ConvErr) :
    ((ConvertCore cfg).2 = some e → Convert cfg = ("", some e)) ∧
      ((Convert cfg).2 = some e → (Convert cfg).1 = "") := by
  rcases hc : ConvertCore cfg with ⟨items, err⟩
  cases err with
  | none =>
    constructor
    · intro h
      simp at h
    · intro h
      simp [Convert, hc] at h
  | some e' =>
    constructor
    · intro h
      replace h : some e' = some e := h
      cases h
      simp [Convert, hc]
    · intro _
      simp [Convert, hc]

theorem C9_no_partial_output_witness :
    Convert { sentence := ["tttest"], emojiSet := reactionSet } =
      ("", some (ConvErr.colourExhausted ("t") 3 2)) :=
  (C9_no_partial_output { sentence := ["tttest"], emojiSet := reactionSet }
    (ConvErr.colourExhausted ("t") 3 2)).1 (by decide)

/-- Claim C5: in reaction mode, once the running emission count has
reached the cap the next resolution fails with CapacityExceeded for any
character whatsoever (the capacity check precedes suffix derivation);
below the cap, a character with no suffix yields the empty token with no
state change and no failure; the state built for the reaction set starts
at zero emissions with an empty map and cap 23. -/
theorem C5_reaction_capacity (r : ReactionSt) (c : Char) :
    (r.maxR ≤ r.written → reactionGet r c = .error (.capacityExceeded r.maxR)) ∧
      (r.written < r.maxR → alphabetSuffix c = "" → reactionGet r c = .ok ("", r)) ∧
      (∀ (cfg cfg' : ConvertCmd) (st : StratState) (ov : List (String × String)),
        cfg.emojiSet = reactionSet → buildStrategy cfg = .ok (cfg', st, ov) →
        st = .reaction ⟨0, [], 23⟩) := by
  refine ⟨?_, ?_, ?_⟩
  · intro h
    unfold reactionGet
    rw [if_pos h]
  · intro h hs
    unfold reactionGet
    rw [if_neg (Nat.not_le.mpr h), if_pos hs]
  · intro cfg cfg' st ov hset hbuild
    unfold buildStrategy at hbuild
    rw [hset] at hbuild
    simp only [reactionSet, alphabetSet, scrabbleSet] at hbuild
    rw [if_pos trivial] at hbuild
    injection hbuild with h1
    exact (congrArg (fun p => p.2.1) h1).symm

theorem C5_reaction_capacity_witness :
    reactionGet ⟨23, [], 23⟩ 'a' = .error (.capacityExceeded 23) ∧
      reactionGet ⟨0, [], 23⟩ ' ' = .ok ("", ⟨0, [], 23⟩) :=
  ⟨(C5_reaction_capacity ⟨23, [], 23⟩ 'a').1 (by decide),
    (C5_reaction_capacity ⟨0, [], 23⟩ ' ').2.1 (by decide) (by decide)⟩

/-- Claim C4: in reaction mode, for a character with suffix s resolved
while the global emission count is `written`, resolution picks the colour
`whichColour (written + i)` for the smallest colour index i (a forward
scan from the current global position) whose colour is not yet recorded
for s, records it, and returns the token `alphabet-<colour>-<s>`. -/
theorem C4_reaction_forward_scan (r : ReactionSt) (c : Char) (i : Nat)
    (hcap : r.written < r.maxR) (hs : alphabetSuffix c ≠ "") (hi : i < alphabetColours)
    (hprev : ∀ j, j < i → whichColour (r.written + j) ∈ usedSlots r (alphabetSuffix c))
    (hfree : whichColour (r.written + i) ∉ usedSlots r (alphabetSuffix c)) :
    reactionGet r c =
      .ok (mkTok (whichColour (r.written + i)) (alphabetSuffix c),
        ⟨r.written,
          setUsed r.used (alphabetSuffix c)
            (usedSlots r (alphabetSuffix c) ++ [whichColour (r.written + i)]),
          r.maxR⟩) := by
  have hrange : List.range alphabetColours = [0, 1] := by decide
  unfold reactionGet
  rw [if_neg (Nat.not_le.mpr hcap), if_neg hs, hrange]
  have hi2 : i < 2 := hi
  interval_cases i
  · rw [scanColour, if_neg hfree]
  · rw [scanColour, if_pos (hprev 0 (by omega)), scanColour, if_neg hfree]

theorem C4_reaction_forward_scan_witness :
    reactionGet ⟨1, [("t", ["", "", "white"])], 23⟩ 't' =
      .ok ("alphabet-yellow-t", ⟨1, [("t", ["", "", "white", "yellow"])], 23⟩) := by
  have h := C4_reaction_forward_scan ⟨1, [("t", ["", "", "white"])], 23⟩ 't' 0 (by decide)
    (by decide) (by decide) (fun j hj => absurd hj (Nat.not_lt_zero j)) (by decide)
  simpa using h

/-- Claim C2: for every character whose lowercased form has an entry in
the override table, the per-character step resolves to the override
token and leaves the wrapped inner resolver state untouched — the
override takes precedence over the inner resolver and perturbs neither
the alphabet alternation counters nor the reaction bookkeeping.  When
the override token is non-empty it is emitted and the character commits;
when it is empty the transducer skips the character (no emission, no
commit), still without touching the inner resolver.  The
`overrideStrategy` definition is absent from the sources, so its branch
of `charStep` is modelled from the spec (see the `charStep` docstring). -/
theorem C2_override_bypasses_inner (ov : List (String × String)) (st : StratState)
    (c : Char) (e : String)
    (h : lookupOv ov (String.singleton (lowerChar c)) = some e) :
    (e ≠ "" → charStep ov st c = .ok ([.chr e], st, true)) ∧
      (e = "" → charStep ov st c = .ok ([], st, false)) := by
  constructor
  · intro he
    unfold charStep
    simp [h, he]
  · intro he
    subst he
    unfold charStep
    simp [h]

theorem C2_override_bypasses_inner_witness :
    charStep [("t", "catjam")] (.alphabet ⟨"letter", 5, 2⟩) 'T' =
      .ok ([.chr ("catjam")], .alphabet ⟨"letter", 5, 2⟩, true) ∧
      charStep [("t", "")] (.alphabet ⟨"letter", 5, 2⟩) 'T' =
        .ok ([], .alphabet ⟨"letter", 5, 2⟩, false) :=
  ⟨(C2_override_bypasses_inner [("t", "catjam")] (.alphabet ⟨"letter", 5, 2⟩) 'T'
      ("catjam") (by decide)).1 (by decide),
    (C2_override_bypasses_inner [("t", "")] (.alphabet ⟨"letter", 5, 2⟩) 'T'
      ("") (by decide)).2 rfl⟩

/-- Claim C6: in alphabet mode with the per-letter pattern and no
overrides, the colours of the successively committed character tokens
strictly alternate white, yellow, white, … counting only
successfully-emitted characters: a character that yields an empty token
does not advance the alternation counter. -/
theorem C6_per_letter_alternation (cfg : ConvertCmd)
    (h1 : cfg.emojiSet = alphabetSet) (h2 : cfg.pattern = letterPattern)
    (h3 : cfg.override = []) (items : List OutItem)
    (hok : ConvertCore cfg = (items, none)) :
    alternatesFrom 0 (charToks items) := by
  unfold ConvertCore at hok
  by_cases hlen :
      ((splitWords (joinSp cfg.sentence).data).map fun l => String.mk l).length < 1
  · rw [if_pos hlen] at hok
    exact absurd (congrArg Prod.snd hok) (by simp)
  · rw [if_neg hlen] at hok
    exact convertWithWords_alphabet_letter (normalizeCmd cfg) _ h1 h2 h3 items hok

theorem C6_per_letter_alternation_witness :
    alternatesFrom 0 (charToks
      [.chr ("alphabet-white-a"), .chr ("alphabet-yellow-b"), .txt ("    "), .chr ("alphabet-white-c")]) :=
  C6_per_letter_alternation { sentence := ["a-b", "c"] } rfl rfl rfl _ (by decide)

/-- Claim C3: in reaction mode with no overrides, any given letter is
successfully emitted at most twice — at most once in white and at most
once in yellow, so when it is emitted twice the two tokens carry the two
distinct colours, and every emitted token is a white or yellow alphabet
token with a non-empty suffix — and a third occurrence fails: converting
"tttest" aborts with ColourExhausted reporting the character "t", the
1-based position written+1 = 3, and the colour limit 2. -/
theorem C3_reaction_letter_limit :
    (∀ (cfg : ConvertCmd) (items : List OutItem),
        cfg.emojiSet = reactionSet → cfg.override = [] →
        ConvertCore cfg = (items, none) →
        (∀ t ∈ charToks items, ∃ sfx, sfx ≠ "" ∧
          (t = mkTok whitePattern sfx ∨ t = mkTok yellowPattern sfx)) ∧
        ∀ sfx, (charToks items).count (mkTok whitePattern sfx) ≤ 1 ∧
          (charToks items).count (mkTok yellowPattern sfx) ≤ 1) ∧
      Convert { sentence := ["tttest"], emojiSet := reactionSet } =
        ("", some (.colourExhausted ("t") 3 2)) := by
  constructor
  · intro cfg items h1 h3 hok
    unfold ConvertCore at hok
    by_cases hlen :
        ((splitWords (joinSp cfg.sentence).data).map fun l => String.mk l).length < 1
    · rw [if_pos hlen] at hok
      exact absurd (congrArg Prod.snd hok) (by simp)
    · rw [if_neg hlen] at hok
      exact convertWithWords_reaction (normalizeCmd cfg) _ h1 h3 items hok
  · decide

theorem C3_reaction_letter_limit_witness :
    (charToks [.chr ("alphabet-white-a"), .txt ("\n"), .chr ("alphabet-yellow-b"),
        .txt ("\n")]).count (mkTok whitePattern ("a")) ≤ 1 ∧
      (charToks [.chr ("alphabet-white-a"), .txt ("\n"), .chr ("alphabet-yellow-b"),
        .txt ("\n")]).count (mkTok yellowPattern ("a")) ≤ 1 :=
  (C3_reaction_letter_limit.1 { sentence := ["ab"], emojiSet := reactionSet }
    [.chr ("alphabet-white-a"), .txt ("\n"), .chr ("alphabet-yellow-b"), .txt ("\n")]
    rfl rfl (by decide)).2 ("a")
